import Mathlib

/-!
Verification model of `personal server start scripts/model_converter.py`.

The script converts every `*.safetensors` file in a directory into a
PyTorch checkpoint (`.ckpt`) file.  We embed it shallowly:

* the filesystem is a finite association list from path strings to file
  contents, plus a list of existing directory paths;
* a file content is either a safetensors container, a checkpoint
  container (each holding a name-to-tensor mapping), or corrupt bytes;
* the byte-level serialization is owned by the external libraries
  (`safetensors.torch.load_file`, `torch.save`, `torch.load`); following
  the spec's contract ("load mapping in format A, store identical mapping
  in format B") they are modelled as faithfully storing and returning the
  mapping, and a failure of `torch.save` (an I/O error the pure model
  cannot derive from the data) is supplied by an oracle `SaveEnv`;
* the Python binding `ckpt` of the loaded mapping is modelled by the
  `held` field of the run state: `ckpt = load_file(...)` sets it,
  `del ckpt` clears it, and an exception leaves it untouched, exactly as
  CPython scoping does;
* every `print` of the script is recorded verbatim in an output list.
-/

deriving instance DecidableEq for Except

namespace ModelConverter

/-- A tensor value as the mapping stores it: dtype, shape and flat payload. -/
structure Tensor where
  dtype : String
  shape : List Nat
  payload : List Int
deriving DecidableEq

/-- An in-memory mapping from tensor names to tensor values. -/
abbrev TensorMap := List (String × Tensor)

/-- What a file on disk holds: a safetensors container, a PyTorch
checkpoint container, or corrupt bytes carrying the error text that
deserializing them raises. -/
inductive FileContent where
  | st (m : TensorMap)
  | ckpt (m : TensorMap)
  | corrupt (cause : String)
deriving DecidableEq

/-- The filesystem: an association list of regular files and the list of
existing directories.  The list order of `files` is the order `glob`
enumerates the directory in. -/
structure FS where
  files : List (String × FileContent)
  dirs : List String
deriving DecidableEq

/-- Look a path up among the regular files. -/
def lookupFile : List (String × FileContent) → String → Option FileContent
  | [], _ => none
  | (q, c) :: rest, p => if q = p then some c else lookupFile rest p

/-- Store a content at a path: overwrite the existing entry in place, or
append a new entry. -/
def setKey : List (String × FileContent) → String → FileContent → List (String × FileContent)
  | [], p, c => [(p, c)]
  | (q, d) :: rest, p, c => if q = p then (p, c) :: rest else (q, d) :: setKey rest p c

/-- Write a file (as `torch.save` does at a target path). -/
def writeFile (fs : FS) (p : String) (c : FileContent) : FS :=
  { fs with files := setKey fs.files p c }

/-- `os.path.exists`: true for a regular file or a directory. -/
def pathExists (fs : FS) (p : String) : Bool :=
  (lookupFile fs.files p).isSome || fs.dirs.contains p

/-- The characters of the source extension `".safetensors"`. -/
def stExt : List Char := ['.', 's', 'a', 'f', 'e', 't', 'e', 'n', 's', 'o', 'r', 's']

/-- The characters of the target extension `".ckpt"`. -/
def ckptExt : List Char := ['.', 'c', 'k', 'p', 't']

/-- Fuelled form of Python's `str.replace(".safetensors", ".ckpt")`:
replace every occurrence, scanning left to right, non-overlapping.  The
fuel only makes the recursion structural; `replaceSt` supplies enough of
it. -/
def replaceStF : Nat → List Char → List Char
  | _, [] => []
  | 0, l => l
  | fuel + 1, c :: rest =>
    if stExt.isPrefixOf (c :: rest) then ckptExt ++ replaceStF fuel (rest.drop 11)
    else c :: replaceStF fuel rest

/-- Python's `s.replace(".safetensors", ".ckpt")` on a character list. -/
def replaceSt (l : List Char) : List Char := replaceStF l.length l

/-- `filename.replace(".safetensors", ".ckpt")`: the target path the
script derives for a source path. -/
def targetName (p : String) : String := ⟨replaceSt p.data⟩

/-- `os.path.basename`: the part of the path after the last slash. -/
def basename (p : String) : String :=
  ⟨(p.data.reverse.takeWhile (fun c => c ≠ '/')).reverse⟩

/-- Whether `glob(f"{base}/*.safetensors")` lists the path `p`: directly
inside the directory `base`, not a hidden file, and carrying the
`.safetensors` extension. -/
def globMatch (base : String) (p : String) : Bool :=
  let pre := base.data ++ ['/']
  pre.isPrefixOf p.data &&
    (let name := p.data.drop pre.length
     !name.isEmpty && name.head? != some '.' && !name.contains '/' && stExt.isSuffixOf name)

/-- The list `glob(f"{base_path}/*.safetensors")`, in directory order. -/
def globFiles (fs : FS) (base : String) : List String :=
  (fs.files.map Prod.fst).filter (fun p => globMatch base p)

/-- Modelled from the spec: `safetensors.torch.load_file` ("deserialize
the source file into an in-memory name-to-tensor mapping", failing on a
malformed or unreadable file).  The byte layout is owned by the external
library; the model returns the stored mapping or the error the content
raises. -/
def load_file (fs : FS) (p : String) : Except String TensorMap :=
  match lookupFile fs.files p with
  | some (FileContent.st m) => Except.ok m
  | some (FileContent.ckpt _) => Except.error "not a valid safetensors file"
  | some (FileContent.corrupt cause) => Except.error cause
  | none => Except.error "no such file"

/-- Modelled from the spec: `torch.load` on a target file ("the target
file, when loaded, yields a mapping"): returns the checkpoint mapping the
file holds. -/
def torch_load (fs : FS) (p : String) : Except String TensorMap :=
  match lookupFile fs.files p with
  | some (FileContent.ckpt m) => Except.ok m
  | some (FileContent.st _) => Except.error "invalid load key"
  | some (FileContent.corrupt cause) => Except.error cause
  | none => Except.error "no such file"

/-- The environment's verdict on each `torch.save` call: `none` means the
save succeeds, `some cause` means it raises an exception with that text
(disk full, permissions, ...).  A failed save is modelled as writing
nothing. -/
abbrev SaveEnv := String → Option String

/-- A `SaveEnv` under which every save succeeds. -/
def saveOk : SaveEnv := fun _ => none

def skipMsg (bn : String) : String := "Skipping " ++ bn ++ " - .ckpt already exists"

def loadingMsg (bn : String) : String := "Loading " ++ bn ++ "..."

def savingMsg (bn : String) : String := "Saving as " ++ bn ++ "..."

def successMsg (bn : String) : String := "✓ Successfully converted " ++ bn

/-- The fixed first part of a per-file error report: it carries the file
name; the cause follows it. -/
def errPre (bn : String) : String := "✗ Error converting " ++ bn ++ ": "

def errMsg (bn : String) (cause : String) : String := errPre bn ++ cause

def foundMsg (n : Nat) : String := "Found " ++ toString n ++ " .safetensors files to convert"

def noFilesMsg (base : String) : String :=
  "No .safetensors files found in '" ++ base ++ "'"

def pathErrMsg (base : String) : String :=
  "Error: Path '" ++ base ++ "' does not exist."

def completeMsg : String := "Conversion complete!"

/-- The state the loop threads: the filesystem, everything printed so
far, and the current value of the Python binding `ckpt` (`none` when no
loaded mapping is held). -/
structure RunState where
  fs : FS
  out : List String
  held : Option TensorMap
deriving DecidableEq

/-- One iteration of the conversion loop, mirroring the body of
`for filename in tqdm(safetensor_files, ...)` line by line. -/
def stepFile (env : SaveEnv) (skip_existing : Bool) (s : RunState) (filename : String) :
    RunState :=
  let output_filename := targetName filename
  if skip_existing && pathExists s.fs output_filename then
    { s with out := s.out ++ [skipMsg (basename filename)] }
  else
    match load_file s.fs filename with
    | Except.error e =>
      { s with out := s.out ++ [loadingMsg (basename filename), errMsg (basename filename) e] }
    | Except.ok ckpt =>
      match env output_filename with
      | some e =>
        { fs := s.fs
          out := s.out ++ [loadingMsg (basename filename), savingMsg (basename output_filename),
            errMsg (basename filename) e]
          held := some ckpt }
      | none =>
        { fs := writeFile s.fs output_filename (FileContent.ckpt ckpt)
          out := s.out ++ [loadingMsg (basename filename), savingMsg (basename output_filename),
            successMsg (basename filename)]
          held := none }

/-- The states the loop passes through: the state at the start of each
iteration, and last the state after the final iteration. -/
def statesAlong (env : SaveEnv) (skip_existing : Bool) : RunState → List String → List RunState
  | s, [] => [s]
  | s, f :: rest => s :: statesAlong env skip_existing (stepFile env skip_existing s f) rest

/-- The whole of `main(base_path, skip_existing)`. -/
def main (fs : FS) (base_path : String) (skip_existing : Bool) (env : SaveEnv) : RunState :=
  if pathExists fs base_path = false then
    { fs := fs, out := [pathErrMsg base_path], held := none }
  else
    let safetensor_files := globFiles fs base_path
    if safetensor_files.isEmpty then
      { fs := fs, out := [noFilesMsg base_path], held := none }
    else
      let s0 : RunState := { fs := fs, out := [foundMsg safetensor_files.length], held := none }
      let s1 := safetensor_files.foldl (stepFile env skip_existing) s0
      { s1 with out := s1.out ++ [completeMsg] }

/-- Modelled from the spec: "derive the target path by replacing the
source extension with the target extension, same directory, same base
name" — replace only the trailing `".safetensors"`. -/
def specTargetName (p : String) : String :=
  ⟨p.data.take (p.data.length - stExt.length) ++ ckptExt⟩

/-- `pat` occurs in `l` at position `i`. -/
def occursAt (pat : List Char) (l : List Char) (i : Nat) : Bool :=
  pat.isPrefixOf (l.drop i)

/-- `msg` is the per-file outcome report for the file named `bn`: its
skip message, its success message, or an error report naming it. -/
def outcomeFor (bn : String) (msg : String) : Bool :=
  msg == skipMsg bn || msg == successMsg bn || (errPre bn).data.isPrefixOf msg.data

/-- How many success reports an output holds. -/
def convertedCount (out : List String) : Nat :=
  (out.filter (fun m => ("✓ Successfully converted ").data.isPrefixOf m.data)).length

/-- How many skip reports an output holds. -/
def skippedCount (out : List String) : Nat :=
  (out.filter (fun m => ("Skipping ").data.isPrefixOf m.data)).length

/-! ### Concrete instances used to evaluate the definitions -/

def tensorA : Tensor := ⟨"float32", [1], [1]⟩

def tensorB : Tensor := ⟨"float32", [1], [2]⟩

def mapA : TensorMap := [("weight", tensorA)]

def mapB : TensorMap := [("weight", tensorB)]

/-- An empty filesystem. -/
def fsEmpty : FS := ⟨[], []⟩

/-- A directory `d` with one well-formed source file. -/
def fsOne : FS := ⟨[("d/a.safetensors", FileContent.st mapA)], ["d"]⟩

/-- A filesystem whose path `f` is a regular file, not a directory. -/
def fsFile : FS := ⟨[("f", FileContent.corrupt "x")], []⟩

/-- A source file whose target already exists with different contents. -/
def fsTargetExists : FS :=
  ⟨[("d/a.safetensors", FileContent.st mapA), ("d/a.ckpt", FileContent.ckpt mapB)], ["d"]⟩

def sTargetExists : RunState := ⟨fsTargetExists, [], none⟩

/-- A corrupt source file next to a well-formed one. -/
def fsMixed : FS :=
  ⟨[("d/bad.safetensors", FileContent.corrupt "bad header"),
    ("d/good.safetensors", FileContent.st mapA)], ["d"]⟩

/-- A directory with a single corrupt source file. -/
def fsCorrupt : FS := ⟨[("d/a.safetensors", FileContent.corrupt "bad header")], ["d"]⟩

/-- Two well-formed source files in one directory. -/
def fsTwo : FS :=
  ⟨[("d/a.safetensors", FileContent.st mapA), ("d/b.safetensors", FileContent.st mapB)], ["d"]⟩

/-- An environment in which saving `d/a.ckpt` raises an I/O error. -/
def envFailA : SaveEnv := fun p => if p = "d/a.ckpt" then some "No space left on device" else none

/-- An environment in which saving `d/good.ckpt` raises an I/O error. -/
def envFailGood : SaveEnv := fun p => if p = "d/good.ckpt" then some "disk full" else none

/-- Two distinct source files whose derived target paths collide on
`d/a.ckpt.ckpt`. -/
def fsColl : FS :=
  ⟨[("d/a.ckpt.safetensors", FileContent.st mapA),
    ("d/a.safetensors.safetensors", FileContent.st mapB)], ["d"]⟩

/-- A source file whose target exists already: a run over it only skips. -/
def fsSkipAll : FS :=
  ⟨[("d/b.safetensors", FileContent.st mapB), ("d/b.ckpt", FileContent.ckpt mapB)], ["d"]⟩

/-! ### Properties of the extension replacement -/

theorem replaceStF_eq : ∀ (n : Nat) (l : List Char) (m : Nat),
    l.length ≤ n → l.length ≤ m → replaceStF n l = replaceStF m l := by
  intro n
  induction n with
  | zero =>
    intro l m hn _
    have : l = [] := List.eq_nil_of_length_eq_zero (Nat.le_zero.mp hn)
    subst this
    cases m <;> rfl
  | succ n ih =>
    intro l m hn hm
    cases l with
    | nil => cases m <;> rfl
    | cons c rest =>
      cases m with
      | zero => exact absurd hm (by simp)
      | succ m =>
        show (if stExt.isPrefixOf (c :: rest) then ckptExt ++ replaceStF n (rest.drop 11)
            else c :: replaceStF n rest) =
          (if stExt.isPrefixOf (c :: rest) then ckptExt ++ replaceStF m (rest.drop 11)
            else c :: replaceStF m rest)
        have hr : rest.length ≤ n := by simpa using hn
        have hr' : rest.length ≤ m := by simpa using hm
        have hd : (rest.drop 11).length ≤ rest.length := by
          rw [List.length_drop]; exact Nat.sub_le _ _
        rw [ih (rest.drop 11) m (le_trans hd hr) (le_trans hd hr'), ih rest m hr hr']

theorem replaceSt_nil : replaceSt [] = [] := rfl

theorem replaceSt_cons (c : Char) (rest : List Char) :
    replaceSt (c :: rest) =
      if stExt.isPrefixOf (c :: rest) then ckptExt ++ replaceSt (rest.drop 11)
      else c :: replaceSt rest := by
  show replaceStF (rest.length + 1) (c :: rest) = _
  show (if stExt.isPrefixOf (c :: rest) then ckptExt ++ replaceStF rest.length (rest.drop 11)
      else c :: replaceStF rest.length rest) = _
  have hd : (rest.drop 11).length ≤ rest.length := by
    rw [List.length_drop]; exact Nat.sub_le _ _
  rw [replaceStF_eq rest.length (rest.drop 11) (rest.drop 11).length hd le_rfl,
    replaceStF_eq rest.length rest rest.length le_rfl le_rfl]
  rfl

/-- A result of the replacement that contains no dot saw no occurrence of
the pattern, so it is the input itself. -/
theorem replaceSt_eq_self_of_no_dot : ∀ l : List Char, '.' ∉ replaceSt l → replaceSt l = l := by
  intro l
  induction l with
  | nil => intro _; rfl
  | cons c rest ih =>
    intro h
    rw [replaceSt_cons] at h ⊢
    by_cases hp : stExt.isPrefixOf (c :: rest) = true
    · rw [if_pos hp] at h
      exact absurd (List.mem_append_left _ (by decide : '.' ∈ ckptExt)) h
    · rw [if_neg hp] at h ⊢
      have h2 : '.' ∉ replaceSt rest := fun hm => h (List.mem_cons_of_mem _ hm)
      rw [ih h2]

/-- The source extension never survives (nor arises) as a suffix of the
replaced path: a derived target path never ends in `".safetensors"`. -/
theorem not_st_suffix_replaceSt (l : List Char) : ¬ stExt <:+ replaceSt l := by
  suffices H : ∀ n (l : List Char), l.length ≤ n → ¬ stExt <:+ replaceSt l from
    H l.length l le_rfl
  intro n
  induction n with
  | zero =>
    intro l hl
    have : l = [] := List.eq_nil_of_length_eq_zero (Nat.le_zero.mp hl)
    subst this
    rw [replaceSt_nil]
    intro hsuf
    have := hsuf.length_le
    simp [stExt] at this
  | succ n ih =>
    intro l hl
    cases l with
    | nil =>
      rw [replaceSt_nil]
      intro hsuf
      have := hsuf.length_le
      simp [stExt] at this
    | cons c rest =>
      have hrest : rest.length ≤ n := by simpa using hl
      rw [replaceSt_cons]
      by_cases hp : stExt.isPrefixOf (c :: rest) = true
      · rw [if_pos hp]
        intro hsuf
        obtain ⟨t, ht⟩ := hsuf
        have hdrop : (rest.drop 11).length ≤ n := by
          rw [List.length_drop]; exact le_trans (Nat.sub_le _ _) hrest
        rcases Nat.lt_or_ge t.length 5 with h4 | h5
        · -- the suffix would have to reach into `".ckpt"`, but no suffix of
          -- `".ckpt"` other than the trivial ones starts like `".safetensors"`
          have hsplit : (t ++ stExt.take (5 - t.length)) ++ stExt.drop (5 - t.length) =
              ckptExt ++ replaceSt (rest.drop 11) := by
            rw [List.append_assoc, List.take_append_drop]; exact ht
          have hlen : (t ++ stExt.take (5 - t.length)).length = ckptExt.length := by
            rw [List.length_append, List.length_take]
            have h1 : 5 - t.length ≤ 12 := le_trans (Nat.sub_le _ _) (by omega)
            have : min (5 - t.length) stExt.length = 5 - t.length := by
              rw [min_eq_left]; simp [stExt]; omega
            rw [this]
            simp [ckptExt]
            omega
          obtain ⟨h1, _⟩ := List.append_inj hsplit hlen
          have h1' : stExt.take (5 - t.length) = ckptExt.drop t.length := by
            have := congrArg (List.drop t.length) h1
            rwa [List.drop_left] at this
          have hb : t.length ≤ 4 := by omega
          generalize t.length = k at h1' hb
          interval_cases k <;> exact absurd h1' (by decide)
        · -- the suffix lies wholly inside the recursive result
          have hsplit : (t.take 5) ++ (t.drop 5 ++ stExt) = ckptExt ++ replaceSt (rest.drop 11) := by
            rw [← List.append_assoc, List.take_append_drop]; exact ht
          have hlen : (t.take 5).length = ckptExt.length := by
            rw [List.length_take, min_eq_left h5]; rfl
          obtain ⟨_, h2⟩ := List.append_inj hsplit hlen
          exact ih (rest.drop 11) hdrop ⟨t.drop 5, h2⟩
      · rw [if_neg hp]
        intro hsuf
        rcases List.suffix_cons_iff.mp hsuf with heq | hsuf'
        · -- the whole remaining result would be exactly `".safetensors"`,
          -- but then the branch condition would have fired
          have hc : c = '.' ∧ replaceSt rest = ['s', 'a', 'f', 'e', 't', 'e', 'n', 's', 'o', 'r', 's'] := by
            have : stExt = c :: replaceSt rest := heq
            rw [stExt] at this
            exact ⟨(List.cons.injEq _ _ _ _ ▸ this).1.symm, ((List.cons.injEq _ _ _ _ ▸ this).2).symm⟩
          obtain ⟨hc1, hc2⟩ := hc
          have hnodot : '.' ∉ replaceSt rest := by rw [hc2]; decide
          have hrr : replaceSt rest = rest := replaceSt_eq_self_of_no_dot rest hnodot
          have : rest = ['s', 'a', 'f', 'e', 't', 'e', 'n', 's', 'o', 'r', 's'] := by
            rw [← hrr, hc2]
          subst this hc1
          exact absurd (by decide : stExt.isPrefixOf
            ('.' :: ['s', 'a', 'f', 'e', 't', 'e', 'n', 's', 'o', 'r', 's']) = true) hp
        · exact ih rest hrest hsuf'

theorem targetName_data (p : String) : (targetName p).data = replaceSt p.data := rfl

/-- A path carrying the source extension is never a derived target path. -/
theorem ne_targetName_of_st_suffix {p : String} (h : stExt <:+ p.data) (f : String) :
    p ≠ targetName f := by
  intro he
  exact not_st_suffix_replaceSt f.data (by rw [← targetName_data, ← he]; exact h)

/-! ### Properties of the filesystem primitives -/

theorem lookupFile_setKey (l : List (String × FileContent)) (q p : String) (c : FileContent) :
    lookupFile (setKey l q c) p = if q = p then some c else lookupFile l p := by
  induction l with
  | nil => by_cases h : q = p <;> simp [setKey, lookupFile, h]
  | cons hd tl ih =>
    obtain ⟨q', d⟩ := hd
    by_cases h : q' = q
    · subst h
      by_cases hp : q' = p <;> simp [setKey, lookupFile, hp]
    · by_cases hp : q' = p
      · subst hp
        have : ¬ q = q' := fun he => h he.symm
        simp [setKey, lookupFile, h, this]
      · simp [setKey, lookupFile, h, hp, ih]

/-! ### Case equations for one loop iteration -/

theorem stepFile_skip {env : SaveEnv} {se : Bool} {s : RunState} {f : String}
    (h : (se && pathExists s.fs (targetName f)) = true) :
    stepFile env se s f = { s with out := s.out ++ [skipMsg (basename f)] } := by
  unfold stepFile
  rw [if_pos h]

theorem stepFile_loadErr {env : SaveEnv} {se : Bool} {s : RunState} {f : String} {e : String}
    (h : (se && pathExists s.fs (targetName f)) = false)
    (hl : load_file s.fs f = Except.error e) :
    stepFile env se s f =
      { s with out := s.out ++ [loadingMsg (basename f), errMsg (basename f) e] } := by
  unfold stepFile
  rw [if_neg (by simp [h]), hl]

theorem stepFile_saveErr {env : SaveEnv} {se : Bool} {s : RunState} {f : String}
    {M : TensorMap} {e : String}
    (h : (se && pathExists s.fs (targetName f)) = false)
    (hl : load_file s.fs f = Except.ok M) (he : env (targetName f) = some e) :
    stepFile env se s f =
      { fs := s.fs
        out := s.out ++ [loadingMsg (basename f), savingMsg (basename (targetName f)),
          errMsg (basename f) e]
        held := some M } := by
  unfold stepFile
  rw [if_neg (by simp [h]), hl, he]

theorem stepFile_success {env : SaveEnv} {se : Bool} {s : RunState} {f : String}
    {M : TensorMap}
    (h : (se && pathExists s.fs (targetName f)) = false)
    (hl : load_file s.fs f = Except.ok M) (he : env (targetName f) = none) :
    stepFile env se s f =
      { fs := writeFile s.fs (targetName f) (FileContent.ckpt M)
        out := s.out ++ [loadingMsg (basename f), savingMsg (basename (targetName f)),
          successMsg (basename f)]
        held := none } := by
  unfold stepFile
  rw [if_neg (by simp [h]), hl, he]

/-! ### Frame and monotonicity lemmas for the loop -/

theorem stepFile_dirs (env : SaveEnv) (se : Bool) (s : RunState) (f : String) :
    (stepFile env se s f).fs.dirs = s.fs.dirs := by
  rcases h : (se && pathExists s.fs (targetName f)) with hv | hv
  · rcases hl : load_file s.fs f with e | M
    · rw [stepFile_loadErr h hl]
    · rcases he : env (targetName f) with _ | e
      · rw [stepFile_success h hl he]; rfl
      · rw [stepFile_saveErr h hl he]
  · rw [stepFile_skip h]

theorem stepFile_out_mono (env : SaveEnv) (se : Bool) (s : RunState) (f : String) :
    ∃ t, (stepFile env se s f).out = s.out ++ t := by
  rcases h : (se && pathExists s.fs (targetName f)) with hv | hv
  · rcases hl : load_file s.fs f with e | M
    · exact ⟨_, by rw [stepFile_loadErr h hl]⟩
    · rcases he : env (targetName f) with _ | e
      · exact ⟨_, by rw [stepFile_success h hl he]⟩
      · exact ⟨_, by rw [stepFile_saveErr h hl he]⟩
  · exact ⟨_, by rw [stepFile_skip h]⟩

/-- An iteration writes nothing except (possibly) its own target path. -/
theorem stepFile_framePath (env : SaveEnv) (se : Bool) (s : RunState) (f : String)
    {p : String} (hp : p ≠ targetName f) :
    lookupFile (stepFile env se s f).fs.files p = lookupFile s.fs.files p := by
  rcases h : (se && pathExists s.fs (targetName f)) with hv | hv
  · rcases hl : load_file s.fs f with e | M
    · rw [stepFile_loadErr h hl]
    · rcases he : env (targetName f) with _ | e
      · rw [stepFile_success h hl he]
        show lookupFile (setKey s.fs.files (targetName f) (FileContent.ckpt M)) p = _
        rw [lookupFile_setKey, if_neg (fun he2 => hp he2.symm)]
      · rw [stepFile_saveErr h hl he]
  · rw [stepFile_skip h]

/-- Files carrying the source extension are untouched by an iteration. -/
theorem stepFile_frameSt (env : SaveEnv) (se : Bool) (s : RunState) (f : String)
    {p : String} (hp : stExt <:+ p.data) :
    lookupFile (stepFile env se s f).fs.files p = lookupFile s.fs.files p :=
  stepFile_framePath env se s f (ne_targetName_of_st_suffix hp f)

theorem stepFile_exists_mono (env : SaveEnv) (se : Bool) (s : RunState) (f : String)
    {p : String} (hp : pathExists s.fs p = true) :
    pathExists (stepFile env se s f).fs p = true := by
  rcases h : (se && pathExists s.fs (targetName f)) with hv | hv
  · rcases hl : load_file s.fs f with e | M
    · rw [stepFile_loadErr h hl]; exact hp
    · rcases he : env (targetName f) with _ | e
      · rw [stepFile_success h hl he]
        unfold pathExists at hp ⊢
        show ((lookupFile (setKey s.fs.files (targetName f) (FileContent.ckpt M)) p).isSome
          || s.fs.dirs.contains p) = true
        rw [lookupFile_setKey]
        by_cases hq : targetName f = p
        · simp [hq]
        · rw [if_neg hq]; exact hp
      · rw [stepFile_saveErr h hl he]; exact hp
  · rw [stepFile_skip h]; exact hp

theorem foldl_dirs (env : SaveEnv) (se : Bool) :
    ∀ (files : List String) (s : RunState),
      (files.foldl (stepFile env se) s).fs.dirs = s.fs.dirs := by
  intro files
  induction files with
  | nil => intro s; rfl
  | cons g rest ih =>
    intro s
    rw [List.foldl_cons, ih, stepFile_dirs]

theorem foldl_out_mono (env : SaveEnv) (se : Bool) :
    ∀ (files : List String) (s : RunState),
      ∃ t, (files.foldl (stepFile env se) s).out = s.out ++ t := by
  intro files
  induction files with
  | nil => intro s; exact ⟨[], by simp⟩
  | cons g rest ih =>
    intro s
    obtain ⟨t1, h1⟩ := stepFile_out_mono env se s g
    obtain ⟨t2, h2⟩ := ih (stepFile env se s g)
    exact ⟨t1 ++ t2, by rw [List.foldl_cons, h2, h1, List.append_assoc]⟩

theorem foldl_frameSt (env : SaveEnv) (se : Bool) :
    ∀ (files : List String) (s : RunState) {p : String}, stExt <:+ p.data →
      lookupFile (files.foldl (stepFile env se) s).fs.files p = lookupFile s.fs.files p := by
  intro files
  induction files with
  | nil => intro s p _; rfl
  | cons g rest ih =>
    intro s p hp
    rw [List.foldl_cons, ih _ hp, stepFile_frameSt _ _ _ _ hp]

theorem foldl_exists_mono (env : SaveEnv) (se : Bool) :
    ∀ (files : List String) (s : RunState) {p : String}, pathExists s.fs p = true →
      pathExists (files.foldl (stepFile env se) s).fs p = true := by
  intro files
  induction files with
  | nil => intro s p hp; exact hp
  | cons g rest ih =>
    intro s p hp
    rw [List.foldl_cons]
    exact ih _ (stepFile_exists_mono env se s g hp)

theorem load_file_congr {fs1 fs2 : FS} {f : String}
    (h : lookupFile fs1.files f = lookupFile fs2.files f) :
    load_file fs1 f = load_file fs2 f := by
  unfold load_file
  rw [h]

/-! ### Discovery lemmas -/

/-- Every discovered path carries the source extension. -/
theorem st_suffix_of_globMatch {base p : String} (h : globMatch base p = true) :
    stExt <:+ p.data := by
  unfold globMatch at h
  simp only [Bool.and_eq_true] at h
  have hsuf : stExt.isSuffixOf (p.data.drop (base.data ++ ['/']).length) = true := h.2.2
  have h1 : stExt <:+ p.data.drop (base.data ++ ['/']).length := by
    rw [List.isSuffixOf_iff_suffix] at hsuf
    exact hsuf
  exact h1.trans (List.drop_suffix _ _)

theorem st_suffix_of_mem_glob {fs : FS} {base f : String} (h : f ∈ globFiles fs base) :
    stExt <:+ f.data :=
  st_suffix_of_globMatch (List.mem_filter.mp h).2

/-- Writing at a path the glob does not list leaves the discovery list
unchanged. -/
theorem globKeys_setKey (base q : String) (c : FileContent) (hq : globMatch base q = false) :
    ∀ l : List (String × FileContent),
      ((setKey l q c).map Prod.fst).filter (fun p => globMatch base p) =
        (l.map Prod.fst).filter (fun p => globMatch base p) := by
  intro l
  induction l with
  | nil => simp [setKey, hq]
  | cons hd tl ih =>
    obtain ⟨q', d⟩ := hd
    by_cases h : q' = q
    · subst h
      simp [setKey]
    · simp only [setKey, if_neg h, List.map_cons, List.filter_cons]
      rw [ih]

theorem stepFile_glob (env : SaveEnv) (se : Bool) (s : RunState) (f : String) (base : String) :
    globFiles (stepFile env se s f).fs base = globFiles s.fs base := by
  have hq : globMatch base (targetName f) = false := by
    rcases hb : globMatch base (targetName f) with hv | hv
    · rfl
    · exact absurd (st_suffix_of_globMatch hb)
        (by rw [targetName_data]; exact not_st_suffix_replaceSt f.data)
  rcases h : (se && pathExists s.fs (targetName f)) with hv | hv
  · rcases hl : load_file s.fs f with e | M
    · rw [stepFile_loadErr h hl]
    · rcases he : env (targetName f) with _ | e
      · rw [stepFile_success h hl he]
        show globFiles (writeFile s.fs (targetName f) (FileContent.ckpt M)) base = _
        unfold globFiles writeFile
        exact globKeys_setKey base (targetName f) (FileContent.ckpt M) hq s.fs.files
      · rw [stepFile_saveErr h hl he]
  · rw [stepFile_skip h]

theorem foldl_glob (env : SaveEnv) (se : Bool) (base : String) :
    ∀ (files : List String) (s : RunState),
      globFiles (files.foldl (stepFile env se) s).fs base = globFiles s.fs base := by
  intro files
  induction files with
  | nil => intro s; rfl
  | cons g rest ih =>
    intro s
    rw [List.foldl_cons, ih, stepFile_glob]

/-- When the directory exists and discovery is nonempty, `main` is the
header line, the fold over the discovered files, and the completion
line. -/
theorem main_eq_fold {fs : FS} {base : String} {se : Bool} {env : SaveEnv}
    (hb : pathExists fs base = true) (hne : globFiles fs base ≠ []) :
    main fs base se env =
      { (globFiles fs base).foldl (stepFile env se)
          { fs := fs, out := [foundMsg (globFiles fs base).length], held := none } with
        out := ((globFiles fs base).foldl (stepFile env se)
          { fs := fs, out := [foundMsg (globFiles fs base).length], held := none }).out
            ++ [completeMsg] } := by
  unfold main
  rw [if_neg (by rw [hb]; simp), if_neg (by simpa using hne)]

/-! ### The claims -/

/-- Claim C3: for every directory path that does not exist, the run
reports the path error exactly once (its whole output is that single
message), performs no file I/O (the filesystem is returned unchanged, and
no discovery, loading or saving message is emitted), and returns
gracefully. -/
theorem claim_C3 (fs : FS) (base : String) (se : Bool) (env : SaveEnv)
    (h : pathExists fs base = false) :
    main fs base se env = { fs := fs, out := [pathErrMsg base], held := none } := by
  unfold main
  rw [if_pos h]

theorem claim_C3_witness :
    pathExists fsEmpty "missing" = false ∧
      main fsEmpty "missing" true saveOk =
        { fs := fsEmpty, out := [pathErrMsg "missing"], held := none } :=
  ⟨by decide, claim_C3 fsEmpty "missing" true saveOk (by decide)⟩

/-- Claim C9: if the base path exists but is a regular file (so, the
filesystem being well formed, no path lies below it), the run does not
report the path error: it passes the existence check, discovers zero
source files, reports that none were found, and returns successfully with
the filesystem unchanged. -/
theorem claim_C9 (fs : FS) (base : String) (se : Bool) (env : SaveEnv)
    (hfile : (lookupFile fs.files base).isSome = true)
    (hnochild : fs.files.all (fun pc => !((base.data ++ ['/']).isPrefixOf pc.1.data)) = true) :
    main fs base se env = { fs := fs, out := [noFilesMsg base], held := none } := by
  have hb : pathExists fs base = true := by
    unfold pathExists
    rw [hfile, Bool.true_or]
  have hglob : globFiles fs base = [] := by
    unfold globFiles
    rw [List.filter_eq_nil_iff]
    intro p hp
    obtain ⟨pc, hpc, hpeq⟩ := List.mem_map.mp hp
    have hpre : ((base.data ++ ['/']).isPrefixOf pc.1.data) = false := by
      have := (List.all_eq_true.mp hnochild) pc hpc
      simpa using this
    subst hpeq
    simp only [globMatch]
    rw [hpre, Bool.false_and]
    simp
  unfold main
  rw [if_neg (by rw [hb]; simp), if_pos (by rw [hglob]; rfl)]

theorem claim_C9_witness :
    (lookupFile fsFile.files "f").isSome = true ∧
      fsFile.files.all (fun pc => !((("f").data ++ ['/']).isPrefixOf pc.1.data)) = true ∧
      main fsFile "f" true saveOk = { fs := fsFile, out := [noFilesMsg "f"], held := none } :=
  ⟨by decide, by decide, claim_C9 fsFile "f" true saveOk (by decide) (by decide)⟩

/-- Claim C10: a run never writes to, deletes or renames a source file:
every path carrying the source extension `".safetensors"` (in particular
every discovered source file) has the same contents after the run as
before it, and the set of directories is unchanged; the only paths a run
writes are derived target paths, which never carry the source
extension. -/
theorem claim_C10 (fs : FS) (base : String) (se : Bool) (env : SaveEnv)
    (p : String) (hp : stExt <:+ p.data) :
    lookupFile (main fs base se env).fs.files p = lookupFile fs.files p ∧
      (main fs base se env).fs.dirs = fs.dirs := by
  by_cases h1 : pathExists fs base = false
  · rw [claim_C3 fs base se env h1]
    exact ⟨rfl, rfl⟩
  · have hb : pathExists fs base = true := by
      cases hv : pathExists fs base
      · exact absurd hv h1
      · rfl
    by_cases h2 : globFiles fs base = []
    · unfold main
      rw [if_neg (by rw [hb]; simp), if_pos (by rw [h2]; rfl)]
      exact ⟨rfl, rfl⟩
    · rw [main_eq_fold hb h2]
      exact ⟨foldl_frameSt env se _ _ hp, foldl_dirs env se _ _⟩

theorem claim_C10_witness :
    stExt <:+ ("d/a.safetensors").data ∧
      lookupFile (main fsOne "d" false saveOk).fs.files "d/a.safetensors" =
        lookupFile fsOne.files "d/a.safetensors" ∧
      (main fsOne "d" false saveOk).fs.dirs = fsOne.dirs := by
  refine ⟨by decide, ?_⟩
  have h := claim_C10 fsOne "d" false saveOk "d/a.safetensors" (by decide)
  exact ⟨h.1, h.2⟩

/-- Claim C4: the skip policy.  With skip-existing true and the target
path present, the iteration only reports the skip: the filesystem, the
held mapping and everything else are unchanged and no loading or saving
happens.  With skip-existing false the file is never skipped: the
iteration always proceeds to loading, and when load and save succeed the
target path is (over)written with the converted mapping. -/
theorem claim_C4 (env : SaveEnv) (s : RunState) (f : String) :
    (pathExists s.fs (targetName f) = true →
      stepFile env true s f = { s with out := s.out ++ [skipMsg (basename f)] }) ∧
    (∃ t, (stepFile env false s f).out = s.out ++ loadingMsg (basename f) :: t) ∧
    (∀ M : TensorMap, load_file s.fs f = Except.ok M → env (targetName f) = none →
      lookupFile (stepFile env false s f).fs.files (targetName f) =
          some (FileContent.ckpt M) ∧
        (stepFile env false s f).out = s.out ++ [loadingMsg (basename f),
          savingMsg (basename (targetName f)), successMsg (basename f)]) := by
  have hfalse : (false && pathExists s.fs (targetName f)) = false := rfl
  refine ⟨fun h => stepFile_skip (by simp [h]), ?_, ?_⟩
  · rcases hl : load_file s.fs f with e | M
    · exact ⟨[errMsg (basename f) e], by rw [stepFile_loadErr hfalse hl]⟩
    · rcases he : env (targetName f) with _ | e
      · exact ⟨[savingMsg (basename (targetName f)), successMsg (basename f)],
          by rw [stepFile_success hfalse hl he]⟩
      · exact ⟨[savingMsg (basename (targetName f)), errMsg (basename f) e],
          by rw [stepFile_saveErr hfalse hl he]⟩
  · intro M hl he
    rw [stepFile_success hfalse hl he]
    constructor
    · show lookupFile (setKey s.fs.files (targetName f) (FileContent.ckpt M)) (targetName f) = _
      rw [lookupFile_setKey, if_pos rfl]
    · rfl

theorem claim_C4_witness :
    (pathExists sTargetExists.fs (targetName "d/a.safetensors") = true ∧
      stepFile saveOk true sTargetExists "d/a.safetensors" =
        { sTargetExists with
          out := sTargetExists.out ++ [skipMsg (basename "d/a.safetensors")] }) ∧
    (load_file sTargetExists.fs "d/a.safetensors" = Except.ok mapA ∧
      lookupFile (stepFile saveOk false sTargetExists "d/a.safetensors").fs.files
        (targetName "d/a.safetensors") = some (FileContent.ckpt mapA)) := by
  refine ⟨⟨by decide, (claim_C4 saveOk sTargetExists "d/a.safetensors").1 (by decide)⟩,
    by decide, ?_⟩
  exact ((claim_C4 saveOk sTargetExists "d/a.safetensors").2.2 mapA (by decide) rfl).1

/-- Claim C5 (amended): the script derives the target path by replacing
every occurrence of the substring `".safetensors"` in the whole source
path with `".ckpt"`; when the substring occurs only as the trailing
extension, this coincides with replacing the trailing extension, keeping
directory and base name. -/
theorem claim_C5 (pre : List Char)
    (H : ∀ i, i < (pre ++ stExt).length → i ≠ pre.length →
      occursAt stExt (pre ++ stExt) i = false) :
    targetName ⟨pre ++ stExt⟩ = ⟨pre ++ ckptExt⟩ := by
  induction pre with
  | nil => decide
  | cons c pre' ih =>
    have hne : ¬ (stExt.isPrefixOf (c :: (pre' ++ stExt)) = true) := by
      intro hp
      have h0 : occursAt stExt ((c :: pre') ++ stExt) 0 = true := hp
      rw [H 0 (by simp) (by simp)] at h0
      cases h0
    have H' : ∀ i, i < (pre' ++ stExt).length → i ≠ pre'.length →
        occursAt stExt (pre' ++ stExt) i = false := by
      intro i hi hni
      have := H (i + 1) (by simp at hi ⊢; omega) (by simpa using hni)
      simpa [occursAt] using this
    have IH := congrArg String.data (ih H')
    show (⟨replaceSt ((c :: pre') ++ stExt)⟩ : String) = _
    have hstep : replaceSt ((c :: pre') ++ stExt) = c :: replaceSt (pre' ++ stExt) := by
      show replaceSt (c :: (pre' ++ stExt)) = _
      rw [replaceSt_cons, if_neg hne]
    rw [hstep]
    have : replaceSt (pre' ++ stExt) = pre' ++ ckptExt := IH
    rw [this]
    rfl

theorem claim_C5_witness :
    (∀ i, i < (("d/a").data ++ stExt).length → i ≠ ("d/a").data.length →
      occursAt stExt (("d/a").data ++ stExt) i = false) ∧
      targetName ⟨("d/a").data ++ stExt⟩ = ⟨("d/a").data ++ ckptExt⟩ :=
  ⟨by decide, claim_C5 ("d/a").data (by decide)⟩

/-- The last state of the trace is the fold the run computes. -/
theorem statesAlong_getLastD (env : SaveEnv) (se : Bool) :
    ∀ (files : List String) (s d : RunState),
      (statesAlong env se s files).getLastD d = files.foldl (stepFile env se) s := by
  intro files
  induction files with
  | nil => intro s d; rfl
  | cons g rest ih =>
    intro s d
    show ((s :: statesAlong env se (stepFile env se s g) rest)).getLastD d = _
    rw [List.getLastD_cons, ih]
    rfl

theorem data_append (a b : String) : (a ++ b).data = a.data ++ b.data := rfl

theorem outcomeFor_skip (bn : String) : outcomeFor bn (skipMsg bn) = true := by
  simp [outcomeFor]

theorem outcomeFor_success (bn : String) : outcomeFor bn (successMsg bn) = true := by
  simp [outcomeFor]

theorem outcomeFor_err (bn c : String) : outcomeFor bn (errMsg bn c) = true := by
  unfold outcomeFor errMsg
  have h : (errPre bn).data.isPrefixOf (errPre bn ++ c).data = true := by
    rw [data_append]
    exact List.isPrefixOf_iff_prefix.mpr (List.prefix_append _ _)
  rw [h]
  simp

/-- Every discovered file receives its own outcome report, and an
exception while loading it (the load returns an error) or while saving it
(the environment fails its target) is reported with the file name and the
cause — unless the skip policy spared it the load — whatever happens to
the other files of the batch. -/
theorem fold_outcome (env : SaveEnv) (se : Bool) (fs0 : FS) (f : String) :
    ∀ (files : List String) (s : RunState), f ∈ files → stExt <:+ f.data →
      load_file s.fs f = load_file fs0 f →
      (∃ msg ∈ (files.foldl (stepFile env se) s).out, outcomeFor (basename f) msg = true) ∧
      (∀ c, load_file fs0 f = Except.error c →
        skipMsg (basename f) ∈ (files.foldl (stepFile env se) s).out ∨
          errMsg (basename f) c ∈ (files.foldl (stepFile env se) s).out) ∧
      (∀ M e, load_file fs0 f = Except.ok M → env (targetName f) = some e →
        skipMsg (basename f) ∈ (files.foldl (stepFile env se) s).out ∨
          errMsg (basename f) e ∈ (files.foldl (stepFile env se) s).out) := by
  intro files
  induction files with
  | nil => intro s hf; exact absurd hf (by simp)
  | cons g rest ih =>
    intro s hf hsuf hstable
    rw [List.foldl_cons]
    by_cases hgf : g = f
    · subst hgf
      obtain ⟨t, ht⟩ := foldl_out_mono env se rest (stepFile env se s g)
      rcases h : (se && pathExists s.fs (targetName g)) with hv | hv
      · rcases hl : load_file s.fs g with e | M
        · have hmem : errMsg (basename g) e ∈ (rest.foldl (stepFile env se) (stepFile env se s g)).out := by
            rw [ht, stepFile_loadErr h hl]
            exact List.mem_append_left _ (by simp)
          refine ⟨⟨errMsg (basename g) e, hmem, outcomeFor_err _ _⟩, ?_, ?_⟩
          · intro c hc
            rw [hstable, hc] at hl
            cases hl
            exact Or.inr hmem
          · intro M e2 hM _
            rw [hstable, hM] at hl
            cases hl
        · rcases he : env (targetName g) with _ | e
          · have hmem : successMsg (basename g) ∈
                (rest.foldl (stepFile env se) (stepFile env se s g)).out := by
              rw [ht, stepFile_success h hl he]
              exact List.mem_append_left _ (by simp)
            refine ⟨⟨successMsg (basename g), hmem, outcomeFor_success _⟩, ?_, ?_⟩
            · intro c hc
              rw [hstable, hc] at hl
              cases hl
            · intro M2 e2 _ he2
              cases he2
          · have hmem : errMsg (basename g) e ∈
                (rest.foldl (stepFile env se) (stepFile env se s g)).out := by
              rw [ht, stepFile_saveErr h hl he]
              exact List.mem_append_left _ (by simp)
            refine ⟨⟨errMsg (basename g) e, hmem, outcomeFor_err _ _⟩, ?_, ?_⟩
            · intro c hc
              rw [hstable, hc] at hl
              cases hl
            · intro M2 e2 _ he2
              obtain rfl := Option.some.inj he2
              exact Or.inr hmem
      · have hmem : skipMsg (basename g) ∈
            (rest.foldl (stepFile env se) (stepFile env se s g)).out := by
          rw [ht, stepFile_skip h]
          exact List.mem_append_left _ (by simp)
        exact ⟨⟨skipMsg (basename g), hmem, outcomeFor_skip _⟩, fun c _ => Or.inl hmem,
          fun M e _ _ => Or.inl hmem⟩
    · have hf' : f ∈ rest := by
        rcases List.mem_cons.mp hf with he | hr
        · exact absurd he.symm hgf
        · exact hr
      have hstable' : load_file (stepFile env se s g).fs f = load_file fs0 f := by
        rw [load_file_congr (stepFile_frameSt env se s g hsuf), hstable]
      exact ih (stepFile env se s g) hf' hsuf hstable'

/-- Claim C2: every discovered source file is processed whatever happens
to the files before it: each receives a per-file outcome report (skip,
success, or an error report naming it); an exception raised while
loading the file and an exception raised while saving it are both caught
and reported together with the file name and the cause (unless the skip
policy spared the file its load and save); the loop always continues to
the remaining files. -/
theorem claim_C2 (fs : FS) (base : String) (se : Bool) (env : SaveEnv) (f : String)
    (hb : pathExists fs base = true) (hf : f ∈ globFiles fs base) :
    (∃ msg ∈ (main fs base se env).out, outcomeFor (basename f) msg = true) ∧
    (∀ c, load_file fs f = Except.error c →
      skipMsg (basename f) ∈ (main fs base se env).out ∨
        errMsg (basename f) c ∈ (main fs base se env).out) ∧
    (∀ M e, load_file fs f = Except.ok M → env (targetName f) = some e →
      skipMsg (basename f) ∈ (main fs base se env).out ∨
        errMsg (basename f) e ∈ (main fs base se env).out) := by
  have hne : globFiles fs base ≠ [] := List.ne_nil_of_mem hf
  rw [main_eq_fold hb hne]
  have hsuf := st_suffix_of_mem_glob hf
  have h := fold_outcome env se fs f (globFiles fs base)
    { fs := fs, out := [foundMsg (globFiles fs base).length], held := none } hf hsuf rfl
  refine ⟨?_, ?_, ?_⟩
  · obtain ⟨msg, hmem, hout⟩ := h.1
    exact ⟨msg, List.mem_append_left _ hmem, hout⟩
  · intro c hc
    rcases h.2.1 c hc with hm | hm
    · exact Or.inl (List.mem_append_left _ hm)
    · exact Or.inr (List.mem_append_left _ hm)
  · intro M e hM he
    rcases h.2.2 M e hM he with hm | hm
    · exact Or.inl (List.mem_append_left _ hm)
    · exact Or.inr (List.mem_append_left _ hm)

theorem claim_C2_witness :
    pathExists fsMixed "d" = true ∧
      "d/bad.safetensors" ∈ globFiles fsMixed "d" ∧
      "d/good.safetensors" ∈ globFiles fsMixed "d" ∧
      load_file fsMixed "d/bad.safetensors" = Except.error "bad header" ∧
      load_file fsMixed "d/good.safetensors" = Except.ok mapA ∧
      envFailGood (targetName "d/good.safetensors") = some "disk full" ∧
      (skipMsg (basename "d/bad.safetensors") ∈ (main fsMixed "d" true envFailGood).out ∨
        errMsg (basename "d/bad.safetensors") "bad header" ∈
          (main fsMixed "d" true envFailGood).out) ∧
      (skipMsg (basename "d/good.safetensors") ∈ (main fsMixed "d" true envFailGood).out ∨
        errMsg (basename "d/good.safetensors") "disk full" ∈
          (main fsMixed "d" true envFailGood).out) :=
  ⟨by decide, by decide, by decide, by decide, by decide, by decide,
    (claim_C2 fsMixed "d" true envFailGood "d/bad.safetensors" (by decide) (by decide)).2.1
      "bad header" (by decide),
    (claim_C2 fsMixed "d" true envFailGood "d/good.safetensors" (by decide) (by decide)).2.2
      mapA "disk full" (by decide) (by decide)⟩

/-- Claim C7 (amended): the mapping loaded for a job is released
deterministically (`del ckpt; gc.collect()`) when the job converts
successfully, so after every successful conversion no mapping is held; a
job whose save raises, however, leaves its loaded mapping held into the
following iterations. -/
theorem claim_C7 (env : SaveEnv) (se : Bool) (s : RunState) (f : String) (M : TensorMap)
    (hl : load_file s.fs f = Except.ok M) (he : env (targetName f) = none)
    (hns : (se && pathExists s.fs (targetName f)) = false) :
    (stepFile env se s f).held = none := by
  rw [stepFile_success hns hl he]

theorem claim_C7_witness :
    load_file (⟨fsOne, [], some mapB⟩ : RunState).fs "d/a.safetensors" = Except.ok mapA ∧
      saveOk (targetName "d/a.safetensors") = none ∧
      (false && pathExists (⟨fsOne, [], some mapB⟩ : RunState).fs
        (targetName "d/a.safetensors")) = false ∧
      (stepFile saveOk false ⟨fsOne, [], some mapB⟩ "d/a.safetensors").held = none :=
  ⟨by decide, rfl, rfl,
    claim_C7 saveOk false ⟨fsOne, [], some mapB⟩ "d/a.safetensors" mapA (by decide) rfl rfl⟩

/-- Claim C7 fails as stated: in a run over `fsTwo` in which saving
`d/a.ckpt` raises an I/O error, the mapping loaded for `d/a.safetensors`
is still held when the next iteration (for `d/b.safetensors`) begins, so
it is not the case that every iteration starts with no held mapping. -/
theorem claim_C7_counterexample :
    ¬ (∀ s ∈ (statesAlong envFailA true ⟨fsTwo, [foundMsg 2], none⟩
        (globFiles fsTwo "d")).dropLast, s.held = none) := by
  decide

/-- Claim C8 (amended): every run that processes at least one source file
ends by emitting the fixed completion message `"Conversion complete!"`
(which carries no outcome counts), after having opened with the count of
discovered files. -/
theorem claim_C8 (fs : FS) (base : String) (se : Bool) (env : SaveEnv)
    (hb : pathExists fs base = true) (hne : globFiles fs base ≠ []) :
    (main fs base se env).out.getLast? = some completeMsg ∧
      (main fs base se env).out.head? = some (foundMsg (globFiles fs base).length) := by
  rw [main_eq_fold hb hne]
  constructor
  · show (_ ++ [completeMsg]).getLast? = _
    rw [List.getLast?_concat]
  · obtain ⟨t, ht⟩ := foldl_out_mono env se (globFiles fs base)
      { fs := fs, out := [foundMsg (globFiles fs base).length], held := none }
    show (((globFiles fs base).foldl (stepFile env se)
      { fs := fs, out := [foundMsg (globFiles fs base).length], held := none }).out
        ++ [completeMsg]).head? = _
    rw [ht]
    rfl

theorem claim_C8_witness :
    pathExists fsOne "d" = true ∧ globFiles fsOne "d" ≠ [] ∧
      (main fsOne "d" true saveOk).out.getLast? = some completeMsg ∧
      (main fsOne "d" true saveOk).out.head? = some (foundMsg (globFiles fsOne "d").length) := by
  refine ⟨by decide, by decide, ?_⟩
  exact claim_C8 fsOne "d" true saveOk (by decide) (by decide)

/-- Claim C8 fails as stated: two runs with different outcome counts (one
conversion and no skip, against no conversion and one skip) end with the
identical completion message, so the message emitted at completion is a
fixed string and carries no overall count of conversions and skips. -/
theorem claim_C8_counterexample :
    (main fsOne "d" true saveOk).out.getLast? = (main fsSkipAll "d" true saveOk).out.getLast? ∧
      convertedCount (main fsOne "d" true saveOk).out ≠
        convertedCount (main fsSkipAll "d" true saveOk).out ∧
      skippedCount (main fsOne "d" true saveOk).out ≠
        skippedCount (main fsSkipAll "d" true saveOk).out := by
  decide

/-- A fold in which every file's target already exists only emits skip
reports and changes nothing. -/
theorem skipAll (env : SaveEnv) :
    ∀ (files : List String) (s : RunState),
      (∀ f ∈ files, pathExists s.fs (targetName f) = true) →
      files.foldl (stepFile env true) s =
        { s with out := s.out ++ files.map (fun f => skipMsg (basename f)) } := by
  intro files
  induction files with
  | nil => intro s _; simp
  | cons g rest ih =>
    intro s hall
    rw [List.foldl_cons]
    have hg : pathExists s.fs (targetName g) = true := hall g (by simp)
    rw [stepFile_skip (by simp [hg])]
    have hall' : ∀ f ∈ rest,
        pathExists ({ s with out := s.out ++ [skipMsg (basename g)] } : RunState).fs
          (targetName f) = true :=
      fun f hf => hall f (List.mem_cons_of_mem _ hf)
    rw [ih _ hall']
    simp

/-- After a fold in which every file loads and saves successfully, every
file's target path exists. -/
theorem allTargets (env : SaveEnv) :
    ∀ (files : List String) (s : RunState),
      (∀ f ∈ files, stExt <:+ f.data) →
      (∀ f ∈ files, (∃ m, load_file s.fs f = Except.ok m) ∧ env (targetName f) = none) →
      ∀ f ∈ files, pathExists (files.foldl (stepFile env true) s).fs (targetName f) = true := by
  intro files
  induction files with
  | nil => intro s _ _ f hf; exact absurd hf (by simp)
  | cons g rest ih =>
    intro s hsuf hok f hf
    rw [List.foldl_cons]
    rcases List.mem_cons.mp hf with hfg | hfr
    · subst hfg
      have hstep : pathExists (stepFile env true s f).fs (targetName f) = true := by
        rcases h : (true && pathExists s.fs (targetName f)) with hv | hv
        · obtain ⟨⟨m, hm⟩, he⟩ := hok f (by simp)
          rw [stepFile_success h hm he]
          show pathExists (writeFile s.fs (targetName f) (FileContent.ckpt m)) (targetName f)
            = true
          unfold pathExists writeFile
          show ((lookupFile (setKey s.fs.files (targetName f) (FileContent.ckpt m))
            (targetName f)).isSome || s.fs.dirs.contains (targetName f)) = true
          rw [lookupFile_setKey, if_pos rfl]
          rfl
        · rw [stepFile_skip h]
          simpa using h
      exact foldl_exists_mono env true rest _ hstep
    · have hsuf' : ∀ f ∈ rest, stExt <:+ f.data :=
        fun f hf => hsuf f (List.mem_cons_of_mem _ hf)
      have hok' : ∀ f ∈ rest,
          (∃ m, load_file (stepFile env true s g).fs f = Except.ok m) ∧
            env (targetName f) = none := by
        intro f' hf'
        obtain ⟨⟨m, hm⟩, he⟩ := hok f' (List.mem_cons_of_mem _ hf')
        refine ⟨⟨m, ?_⟩, he⟩
        rw [load_file_congr (stepFile_frameSt env true s g
          (hsuf f' (List.mem_cons_of_mem _ hf')))]
        exact hm
      exact ih (stepFile env true s g) hsuf' hok' f hfr

/-- Claim C6 (amended): with skip-existing enabled and a first run in
which every discovered file loads and saves successfully, a second run
over the same directory reports every file as skipped — its output is
exactly the header, one skip message per file, and the completion message
— and writes nothing: the filesystem after the second run is the
filesystem after the first.  (A file whose first conversion fails is
retried, not skipped, by the second run.) -/
theorem claim_C6 (fs : FS) (base : String) (env : SaveEnv)
    (hb : pathExists fs base = true) (hne : globFiles fs base ≠ [])
    (hok : ∀ f ∈ globFiles fs base,
      (∃ m, load_file fs f = Except.ok m) ∧ env (targetName f) = none) :
    (main (main fs base true env).fs base true env).fs = (main fs base true env).fs ∧
      (main (main fs base true env).fs base true env).out =
        foundMsg (globFiles fs base).length ::
          ((globFiles fs base).map (fun f => skipMsg (basename f)) ++ [completeMsg]) := by
  have hrun1 := @main_eq_fold fs base true env hb hne
  have hfs1eq : (main fs base true env).fs =
      ((globFiles fs base).foldl (stepFile env true)
        { fs := fs, out := [foundMsg (globFiles fs base).length], held := none }).fs := by
    rw [hrun1]
  have hglob1 : globFiles (main fs base true env).fs base = globFiles fs base := by
    rw [hfs1eq]
    exact foldl_glob env true base _ _
  have hb1 : pathExists (main fs base true env).fs base = true := by
    rw [hfs1eq]
    exact foldl_exists_mono env true _ _ hb
  have htargets : ∀ f ∈ globFiles fs base,
      pathExists (main fs base true env).fs (targetName f) = true := by
    intro f hf
    rw [hfs1eq]
    exact allTargets env (globFiles fs base) _
      (fun g hg => st_suffix_of_mem_glob hg) hok f hf
  have hne1 : globFiles (main fs base true env).fs base ≠ [] := by
    rw [hglob1]; exact hne
  rw [main_eq_fold hb1 hne1, hglob1]
  rw [skipAll env (globFiles fs base)
    { fs := (main fs base true env).fs, out := [foundMsg (globFiles fs base).length],
      held := none } (fun f hf => htargets f hf)]
  exact ⟨rfl, by simp⟩

theorem claim_C6_witness :
    (main (main fsOne "d" true saveOk).fs "d" true saveOk).fs = (main fsOne "d" true saveOk).fs ∧
      (main (main fsOne "d" true saveOk).fs "d" true saveOk).out =
        foundMsg (globFiles fsOne "d").length ::
          ((globFiles fsOne "d").map (fun f => skipMsg (basename f)) ++ [completeMsg]) := by
  apply claim_C6 fsOne "d" saveOk (by decide) (by decide)
  intro f hf
  have hglob : globFiles fsOne "d" = ["d/a.safetensors"] := by decide
  rw [hglob] at hf
  have hfe : f = "d/a.safetensors" := List.mem_singleton.mp hf
  subst hfe
  exact ⟨⟨mapA, by decide⟩, rfl⟩

/-- Claim C6 fails as stated: over a directory holding one corrupt
source file, the second run (skip-existing on) does not report the file
as skipped — it retries the conversion and reports the error again. -/
theorem claim_C6_counterexample :
    ¬ (∀ f ∈ globFiles (main fsCorrupt "d" true saveOk).fs "d",
        skipMsg (basename f) ∈ (main (main fsCorrupt "d" true saveOk).fs "d" true saveOk).out) := by
  decide

/-- A fold over files none of which derives the target `tgt` leaves the
contents at `tgt` unchanged. -/
theorem persistOther (env : SaveEnv) (se : Bool) (tgt : String) :
    ∀ (files : List String) (s : RunState),
      (∀ g ∈ files, targetName g ≠ tgt) →
      lookupFile (files.foldl (stepFile env se) s).fs.files tgt = lookupFile s.fs.files tgt := by
  intro files
  induction files with
  | nil => intro s _; rfl
  | cons g rest ih =>
    intro s hne
    rw [List.foldl_cons, ih _ (fun g' hg' => hne g' (List.mem_cons_of_mem _ hg'))]
    exact stepFile_framePath env se s g (fun heq => hne g (by simp) heq.symm)

/-- Once a file of the batch is converted, its target holds the converted
mapping at the end of the run, provided no other file of the batch
derives the same target path. -/
theorem convPersist (env : SaveEnv) (se : Bool) (f : String) (M : TensorMap)
    (hsuf : stExt <:+ f.data) (he : env (targetName f) = none) :
    ∀ (files : List String) (s : RunState), f ∈ files →
      (∀ g ∈ files, targetName g = targetName f → g = f) →
      load_file s.fs f = Except.ok M →
      (se = false ∨ pathExists s.fs (targetName f) = false ∨
        lookupFile s.fs.files (targetName f) = some (FileContent.ckpt M)) →
      lookupFile (files.foldl (stepFile env se) s).fs.files (targetName f) =
        some (FileContent.ckpt M) := by
  intro files
  induction files with
  | nil => intro s hf; exact absurd hf (by simp)
  | cons g rest ih =>
    intro s hf hcol hload hdisj
    rw [List.foldl_cons]
    by_cases hgf : g = f
    · subst hgf
      have hstep : lookupFile (stepFile env se s g).fs.files (targetName g) =
          some (FileContent.ckpt M) := by
        rcases h : (se && pathExists s.fs (targetName g)) with hv | hv
        · rw [stepFile_success h hload he]
          show lookupFile (setKey s.fs.files (targetName g) (FileContent.ckpt M))
            (targetName g) = _
          rw [lookupFile_setKey, if_pos rfl]
        · rw [stepFile_skip h]
          have hab : se = true ∧ pathExists s.fs (targetName g) = true := by
            simpa using h
          rcases hdisj with h0 | h0 | h0
          · rw [h0] at hab
            exact absurd hab.1 (by decide)
          · rw [h0] at hab
            exact absurd hab.2 (by decide)
          · exact h0
      by_cases hgr : g ∈ rest
      · refine ih (stepFile env se s g) hgr
          (fun g' hg' hq => hcol g' (List.mem_cons_of_mem _ hg') hq) ?_
          (Or.inr (Or.inr hstep))
        rw [load_file_congr (stepFile_frameSt env se s g hsuf)]
        exact hload
      · have hrest : ∀ g' ∈ rest, targetName g' ≠ targetName g := by
          intro g' hg' heq
          exact hgr ((hcol g' (List.mem_cons_of_mem _ hg') heq) ▸ hg')
        rw [persistOther env se (targetName g) rest _ hrest]
        exact hstep
    · have hf' : f ∈ rest := by
        rcases List.mem_cons.mp hf with he' | hr
        · exact absurd he'.symm hgf
        · exact hr
      have hgtne : targetName g ≠ targetName f := fun heq => hgf (hcol g (by simp) heq)
      have hlk : lookupFile (stepFile env se s g).fs.files (targetName f) =
          lookupFile s.fs.files (targetName f) :=
        stepFile_framePath env se s g (fun heq => hgtne heq.symm)
      have hload' : load_file (stepFile env se s g).fs f = Except.ok M := by
        rw [load_file_congr (stepFile_frameSt env se s g hsuf)]
        exact hload
      have hdisj' : se = false ∨
          pathExists (stepFile env se s g).fs (targetName f) = false ∨
          lookupFile (stepFile env se s g).fs.files (targetName f) =
            some (FileContent.ckpt M) := by
        rcases hdisj with h0 | h0 | h0
        · exact Or.inl h0
        · refine Or.inr (Or.inl ?_)
          unfold pathExists at h0 ⊢
          rw [hlk, stepFile_dirs]
          exact h0
        · exact Or.inr (Or.inr (by rw [hlk]; exact h0))
      exact ih (stepFile env se s g) hf'
        (fun g' hg' hq => hcol g' (List.mem_cons_of_mem _ hg') hq) hload' hdisj'

/-- Claim C1 (amended): for every discovered source file holding a
mapping `M` that the run converts successfully (it is not skipped and its
save succeeds), loading the produced target file at the end of the run
yields exactly `M` — provided no other file of the batch derives the same
target path (two sources can collide on one target, and then the later
conversion overwrites the earlier one's output). -/
theorem claim_C1 (fs : FS) (base : String) (se : Bool) (env : SaveEnv) (f : String)
    (M : TensorMap)
    (hb : pathExists fs base = true)
    (hf : f ∈ globFiles fs base)
    (hload : load_file fs f = Except.ok M)
    (he : env (targetName f) = none)
    (hns : se = false ∨ pathExists fs (targetName f) = false)
    (hcol : ∀ g ∈ globFiles fs base, targetName g = targetName f → g = f) :
    torch_load (main fs base se env).fs (targetName f) = Except.ok M := by
  have hne : globFiles fs base ≠ [] := List.ne_nil_of_mem hf
  rw [main_eq_fold hb hne]
  have hsuf := st_suffix_of_mem_glob hf
  have h := convPersist env se f M hsuf he (globFiles fs base)
    { fs := fs, out := [foundMsg (globFiles fs base).length], held := none } hf hcol hload
    (hns.elim Or.inl (fun h0 => Or.inr (Or.inl h0)))
  show torch_load ((globFiles fs base).foldl (stepFile env se)
    { fs := fs, out := [foundMsg (globFiles fs base).length], held := none }).fs
    (targetName f) = Except.ok M
  unfold torch_load
  rw [h]

theorem claim_C1_witness :
    torch_load (main fsOne "d" false saveOk).fs (targetName "d/a.safetensors") =
      Except.ok mapA := by
  apply claim_C1 fsOne "d" false saveOk "d/a.safetensors" mapA (by decide) (by decide)
    (by decide) rfl (Or.inl rfl)
  intro g hg _
  have hglob : globFiles fsOne "d" = ["d/a.safetensors"] := by decide
  rw [hglob] at hg
  exact List.mem_singleton.mp hg

/-- Claim C1 fails as stated: in `fsColl` the file `d/a.ckpt.safetensors`
(holding `mapA`) is successfully converted, yet loading its produced
target `d/a.ckpt.ckpt` at the end of the run yields `mapB`, because the
other source `d/a.safetensors.safetensors` derives the same target path
and overwrites it. -/
theorem claim_C1_counterexample :
    "d/a.ckpt.safetensors" ∈ globFiles fsColl "d" ∧
      load_file fsColl "d/a.ckpt.safetensors" = Except.ok mapA ∧
      successMsg (basename "d/a.ckpt.safetensors") ∈ (main fsColl "d" false saveOk).out ∧
      torch_load (main fsColl "d" false saveOk).fs (targetName "d/a.ckpt.safetensors") ≠
        Except.ok mapA := by
  decide

/-- Claim C5 fails as stated: for the discovered source file
`d/a.safetensors.safetensors` the script derives `d/a.ckpt.ckpt`, not the
spec's trailing-extension replacement `d/a.safetensors.ckpt`. -/
theorem claim_C5_counterexample :
    "d/a.safetensors.safetensors" ∈ globFiles fsColl "d" ∧
      targetName "d/a.safetensors.safetensors" ≠
        specTargetName "d/a.safetensors.safetensors" := by
  decide

end ModelConverter
